import Mathlib

/-!
Verification of the key-derivation core of the gvltctl CLI.

The repository's own code (src/main.rs) contains the two key commands
`generate_key` and `compute_key`, the output helper `print_object`, and the
hardcoded derivation-path literals; the cryptographic core they call
(mnemonic codec, seed derivation, BIP32 HD derivation, key serialization,
account-identifier encoding) lives in external crates and is modelled here
from the specification, as executable Lean definitions.
-/

namespace Gvltctl

/-! ## Bit and byte utilities -/

/-- Little-endian bits of a natural number, fixed width `w`. -/
def natToBitsLE : Nat → Nat → List Bool
  | 0, _ => []
  | w + 1, n => (n % 2 = 1) :: natToBitsLE w (n / 2)

/-- Value of a little-endian bit list. -/
def bitsFromLE : List Bool → Nat
  | [] => 0
  | b :: bs => (if b then 1 else 0) + 2 * bitsFromLE bs

/-- Big-endian (most-significant-bit first) bits of a natural number, width `w`. -/
def natToBits (w n : Nat) : List Bool := (natToBitsLE w n).reverse

/-- Value of a big-endian bit list. -/
def bitsToNat (bs : List Bool) : Nat := bitsFromLE bs.reverse

/-- Split a list into consecutive chunks of `n` elements (last chunk may be
shorter); returns `[]` for the empty list or chunk size `0`. -/
def chunks (n : Nat) (l : List α) : List (List α) :=
  if h : l.length = 0 ∨ n = 0 then []
  else l.take n :: chunks n (l.drop n)
termination_by l.length
decreasing_by
  simp only [not_or] at h
  simp only [List.length_drop]
  omega

/-- Bytes (as naturals below 256) to big-endian bits. -/
def bytesToBits (bytes : List Nat) : List Bool := bytes.flatMap (natToBits 8)

/-- Big-endian bits to bytes, 8 bits per byte. -/
def bitsToBytes (bs : List Bool) : List Nat := (chunks 8 bs).map bitsToNat

/-- Little-endian byte expansion of a natural, fixed width. -/
def leBytes : Nat → Nat → List Nat
  | 0, _ => []
  | w + 1, n => n % 256 :: leBytes w (n / 256)

/-- Big-endian byte expansion of a natural, fixed width `w`. -/
def beBytes (w n : Nat) : List Nat := (leBytes w n).reverse

/-- Value of a big-endian byte list. -/
def bytesToNatBE (bytes : List Nat) : Nat := bytes.foldl (fun a b => 256 * a + b) 0

/-- Bytewise xor of two byte lists (truncates to the shorter). -/
def xorBytes (a b : List Nat) : List Nat := List.zipWith Nat.xor a b

/-! ## SHA-2 family (the 256-bit and 512-bit cryptographic hashes)

Modelled from the spec: the cryptographic hash functions used by the core
(checksum hash for the mnemonic, and the 512-bit hash inside the seed
derivation HMAC) live in external crates.  They are given here as the
standard SHA-2 construction: round constants are the fractional parts of
the cube roots of the first primes, initial state the fractional parts of
the square roots of the first primes (expressed via integer roots). -/

/-- Integer cube-root search step: refine by descending powers of two. -/
def icbrtGo (n : Nat) : Nat → Nat → Nat
  | 0, r => r
  | k + 1, r =>
    let c := r + 2 ^ k
    icbrtGo n k (if c ^ 3 ≤ n then c else r)

/-- Integer cube root (largest `r` with `r ^ 3 ≤ n`, for `n < 2 ^ 210`). -/
def icbrt (n : Nat) : Nat := icbrtGo n 70 0

/-- The first eighty prime numbers. -/
def primes80 : List Nat :=
  [2, 3, 5, 7, 11, 13, 17, 19, 23, 29,
   31, 37, 41, 43, 47, 53, 59, 61, 67, 71,
   73, 79, 83, 89, 97, 101, 103, 107, 109, 113,
   127, 131, 137, 139, 149, 151, 157, 163, 167, 173,
   179, 181, 191, 193, 197, 199, 211, 223, 227, 229,
   233, 239, 241, 251, 257, 263, 269, 271, 277, 281,
   283, 293, 307, 311, 313, 317, 331, 337, 347, 349,
   353, 359, 367, 373, 379, 383, 389, 397, 401, 409]

/-- State of a SHA-2 compression: eight working words. -/
structure Hash8 where
  va : Nat
  vb : Nat
  vc : Nat
  vd : Nat
  ve : Nat
  vf : Nat
  vg : Nat
  vh : Nat

deriving DecidableEq

/-- SHA-256 round constants: fractional cube roots of the first 64 primes. -/
def K256 : List Nat := (primes80.take 64).map (fun p => icbrt (p * 2 ^ 96) % 2 ^ 32)

/-- SHA-512 round constants: fractional cube roots of the first 80 primes. -/
def K512 : List Nat := primes80.map (fun p => icbrt (p * 2 ^ 192) % 2 ^ 64)

/-- SHA-256 initial state: fractional square roots of the first 8 primes. -/
def H256 : Hash8 :=
  ⟨Nat.sqrt (2 * 2 ^ 64) % 2 ^ 32, Nat.sqrt (3 * 2 ^ 64) % 2 ^ 32,
   Nat.sqrt (5 * 2 ^ 64) % 2 ^ 32, Nat.sqrt (7 * 2 ^ 64) % 2 ^ 32,
   Nat.sqrt (11 * 2 ^ 64) % 2 ^ 32, Nat.sqrt (13 * 2 ^ 64) % 2 ^ 32,
   Nat.sqrt (17 * 2 ^ 64) % 2 ^ 32, Nat.sqrt (19 * 2 ^ 64) % 2 ^ 32⟩

/-- SHA-512 initial state: fractional square roots of the first 8 primes. -/
def H512 : Hash8 :=
  ⟨Nat.sqrt (2 * 2 ^ 128) % 2 ^ 64, Nat.sqrt (3 * 2 ^ 128) % 2 ^ 64,
   Nat.sqrt (5 * 2 ^ 128) % 2 ^ 64, Nat.sqrt (7 * 2 ^ 128) % 2 ^ 64,
   Nat.sqrt (11 * 2 ^ 128) % 2 ^ 64, Nat.sqrt (13 * 2 ^ 128) % 2 ^ 64,
   Nat.sqrt (17 * 2 ^ 128) % 2 ^ 64, Nat.sqrt (19 * 2 ^ 128) % 2 ^ 64⟩

/-- Right-rotation of an unsigned `w`-bit word. -/
def rotr (w n x : Nat) : Nat := x / 2 ^ n + x % 2 ^ n * 2 ^ (w - n)

/-- Small sigma: two rotations xored with a right shift. -/
def sigmaR (w r1 r2 s x : Nat) : Nat :=
  Nat.xor (rotr w r1 x) (Nat.xor (rotr w r2 x) (x / 2 ^ s))

/-- Big sigma: three rotations xored together. -/
def sigmaB (w r1 r2 r3 x : Nat) : Nat :=
  Nat.xor (rotr w r1 x) (Nat.xor (rotr w r2 x) (rotr w r3 x))

/-- SHA-2 choice function on `w`-bit words. -/
def chF (w e f g : Nat) : Nat :=
  Nat.xor (Nat.land e f) (Nat.land (2 ^ w - 1 - e % 2 ^ w) g)

/-- SHA-2 majority function. -/
def majF (a b c : Nat) : Nat :=
  Nat.xor (Nat.land a b) (Nat.xor (Nat.land a c) (Nat.land b c))

/-- Extend the message schedule, kept most-recent-word first. -/
def scheduleRev (sigma0 sigma1 : Nat → Nat) (w : Nat) : Nat → List Nat → List Nat
  | 0, ws => ws
  | k + 1, ws =>
    scheduleRev sigma0 sigma1 w k
      ((sigma1 (ws.getD 1 0) + ws.getD 6 0 + sigma0 (ws.getD 14 0) + ws.getD 15 0) % 2 ^ w :: ws)

/-- One SHA-2 round on the eight working words. -/
def sha2Round (w : Nat) (bigS0 bigS1 : Nat → Nat) (s : Hash8) (k m : Nat) : Hash8 :=
  let t1 := (s.vh + bigS1 s.ve + chF w s.ve s.vf s.vg + k + m) % 2 ^ w
  let t2 := (bigS0 s.va + majF s.va s.vb s.vc) % 2 ^ w
  ⟨(t1 + t2) % 2 ^ w, s.va, s.vb, s.vc, (s.vd + t1) % 2 ^ w, s.ve, s.vf, s.vg⟩

/-- Compress one 16-word block into the running state. -/
def compressBlock (w rounds : Nat) (K : List Nat) (bigS0 bigS1 sigma0 sigma1 : Nat → Nat)
    (s : Hash8) (block : List Nat) : Hash8 :=
  let ws := (scheduleRev sigma0 sigma1 w (rounds - 16) block.reverse).reverse
  let t := (List.zip K ws).foldl (fun st kw => sha2Round w bigS0 bigS1 st kw.1 kw.2) s
  ⟨(s.va + t.va) % 2 ^ w, (s.vb + t.vb) % 2 ^ w, (s.vc + t.vc) % 2 ^ w,
   (s.vd + t.vd) % 2 ^ w, (s.ve + t.ve) % 2 ^ w, (s.vf + t.vf) % 2 ^ w,
   (s.vg + t.vg) % 2 ^ w, (s.vh + t.vh) % 2 ^ w⟩

/-- Merkle-Damgard padding: a 0x80 byte, zeros, and the big-endian bit length. -/
def padMsg (blockBytes lenBytes : Nat) (msg : List Nat) : List Nat :=
  let L := msg.length
  let padLen := (blockBytes - (L + 1 + lenBytes) % blockBytes) % blockBytes
  msg ++ 128 :: (List.replicate padLen 0 ++ beBytes lenBytes (8 * L))

/-- Group bytes into big-endian machine words of `wordBytes` bytes. -/
def bytesToWords (wordBytes : Nat) (bytes : List Nat) : List Nat :=
  (chunks wordBytes bytes).map bytesToNatBE

/-- Generic SHA-2: pad, split into 16-word blocks, fold the compression. -/
def sha2 (wordBytes rounds : Nat) (K : List Nat) (H0 : Hash8)
    (bigS0 bigS1 sigma0 sigma1 : Nat → Nat) (msg : List Nat) : Hash8 :=
  let padded := padMsg (16 * wordBytes) (2 * wordBytes) msg
  let blocks := chunks 16 (bytesToWords wordBytes padded)
  blocks.foldl (compressBlock (8 * wordBytes) rounds K bigS0 bigS1 sigma0 sigma1) H0

/-- Serialize the final state as big-endian bytes. -/
def hashBytes (wordBytes : Nat) (s : Hash8) : List Nat :=
  [s.va, s.vb, s.vc, s.vd, s.ve, s.vf, s.vg, s.vh].flatMap (beBytes wordBytes)

/-- SHA-256 of a byte string, as 32 bytes. -/
def sha256 (msg : List Nat) : List Nat :=
  hashBytes 4 (sha2 4 64 K256 H256 (sigmaB 32 2 13 22) (sigmaB 32 6 11 25)
    (sigmaR 32 7 18 3) (sigmaR 32 17 19 10) msg)

/-- SHA-512 of a byte string, as 64 bytes. -/
def sha512 (msg : List Nat) : List Nat :=
  hashBytes 8 (sha2 8 80 K512 H512 (sigmaB 64 28 34 39) (sigmaB 64 14 18 41)
    (sigmaR 64 1 8 7) (sigmaR 64 19 61 6) msg)

/-! ## HMAC and PBKDF2 over the 512-bit hash

Modelled from the spec: seed derivation "applies a password-based key
derivation function using HMAC with a 512-bit hash, 2048 iterations". -/

/-- HMAC with SHA-512 (block size 128 bytes, ipad 0x36, opad 0x5c). -/
def hmacSha512 (key msg : List Nat) : List Nat :=
  let k0 := if 128 < key.length then sha512 key else key
  let kpad := k0 ++ List.replicate (128 - k0.length) 0
  sha512 ((kpad.map (fun b => Nat.xor b 92)) ++
    sha512 ((kpad.map (fun b => Nat.xor b 54)) ++ msg))

/-- Inner PBKDF2 iteration: repeatedly re-HMAC and xor into the accumulator. -/
def pbkdf2Loop (password : List Nat) : Nat → List Nat → List Nat → List Nat
  | 0, _, acc => acc
  | k + 1, u, acc =>
    let u2 := hmacSha512 password u
    pbkdf2Loop password k u2 (xorBytes acc u2)

/-- One PBKDF2 output block (`idx` is the 1-based block index). -/
def pbkdf2Block (password salt : List Nat) (iters idx : Nat) : List Nat :=
  let u1 := hmacSha512 password (salt ++ beBytes 4 idx)
  pbkdf2Loop password (iters - 1) u1 u1

/-- PBKDF2 with the HMAC-SHA512 pseudorandom function. -/
def pbkdf2HmacSha512 (password salt : List Nat) (iters dkLen : Nat) : List Nat :=
  (((List.range ((dkLen + 63) / 64)).map
    (fun i => pbkdf2Block password salt iters (i + 1))).flatten).take dkLen

/-! ## Error model

The error kinds of the core, from the spec's error-handling design, plus a
separate outcome for process termination (a Rust `assert!` failure), which
is not a recoverable error value. -/

/-- The recoverable error kinds of the derivation core. -/
inductive CoreError
  | invalidEntropyLength
  | unknownWord
  | checksumMismatch
  | invalidPathSyntax
  | derivationArithmetic
  | invalidKeyMaterial
  | encodingError

deriving DecidableEq

/-- Outcome of running a command body: a typed error propagated with the
question-mark operator, or process termination through a failed `assert!`. -/
inductive RunError
  | panicked (msg : String)
  | failed (e : CoreError)

deriving DecidableEq

deriving instance DecidableEq for Except

/-! ## The mnemonic wordlist

Modelled from the spec: the codec validates words against "a fixed
2048-word list".  The English list itself is external data not contained in
the repository; it is modelled by 2048 distinct, nonempty, whitespace-free
lowercase words, which are exactly the properties the codec relies on. -/

/-- One lowercase letter (drawn from the first sixteen). -/
def wordChar (d : Nat) : Char := Char.ofNat (97 + d % 16)

/-- The `i`-th word of the modelled list: three letters encoding `i`. -/
def mkWord (i : Nat) : String := String.mk [wordChar (i / 256), wordChar (i / 16), wordChar i]

/-- The fixed 2048-word list. -/
def wordlist : List String := (List.range 2048).map mkWord

/-- Look a word up in a list, returning its first index. -/
def indexIn (w : String) : List String → Option Nat
  | [] => none
  | x :: xs => if x = w then some 0 else (indexIn w xs).map (· + 1)

/-! ## Character-level phrase splitting and joining -/

/-- The space character. -/
def spaceChar : Char := Char.ofNat 32

/-- Split a character list on a separator (adjacent separators give empty words). -/
def splitChars (sep : Char) : List Char → List (List Char)
  | [] => [[]]
  | c :: cs =>
    if c = sep then [] :: splitChars sep cs
    else
      match splitChars sep cs with
      | [] => [[c]]
      | w :: ws => (c :: w) :: ws

/-- Join words with a separator character. -/
def joinChars (sep : Char) : List (List Char) → List Char
  | [] => []
  | [w] => w
  | w :: ws => w ++ sep :: joinChars sep ws

/-! ## Mnemonic codec

Modelled from the spec: `generate` computes checksum bits as the leading
bits of the cryptographic hash of the entropy, concatenates entropy and
checksum, and maps each 11-bit group to a word; `parse` splits on
whitespace, maps each word back to its index (failing with
`UnknownWordError` when absent), concatenates bits, splits into entropy
and checksum and verifies the recomputed checksum. -/

/-- Valid entropy lengths in bytes (128 to 256 bits). -/
def validEntropyByteLengths : List Nat := [16, 20, 24, 28, 32]

/-- Valid mnemonic word counts. -/
def validWordCounts : List Nat := [12, 15, 18, 21, 24]

/-- Checksum bits: leading `entropy_bits / 32` bits of the hash of the entropy. -/
def checksumOfEntropy (entropy : List Nat) : List Bool :=
  (bytesToBits (sha256 entropy)).take (entropy.length * 8 / 32)

/-- 11-bit word indices of entropy plus checksum. -/
def wordIndicesOfEntropy (entropy : List Nat) : List Nat :=
  (chunks 11 (bytesToBits entropy ++ checksumOfEntropy entropy)).map bitsToNat

/-- Word at an index of the fixed list. -/
def wordAt (i : Nat) : String := wordlist.getD i ""

/-- The word sequence encoding the given entropy. -/
def wordsOfEntropy (entropy : List Nat) : List String :=
  (wordIndicesOfEntropy entropy).map wordAt

/-- Generate a mnemonic from drawn entropy bytes. -/
def newMnemonic (entropy : List Nat) : Except CoreError (List String) :=
  if entropy.length ∈ validEntropyByteLengths then .ok (wordsOfEntropy entropy)
  else .error .invalidEntropyLength

/-- Join words into a single space-separated phrase. -/
def phraseOfWords (ws : List String) : String :=
  String.mk (joinChars spaceChar (ws.map String.data))

/-- Split a phrase on whitespace into its words. -/
def phraseWords (phrase : String) : List String :=
  (splitChars spaceChar phrase.data).map String.mk

/-- Map each word of a phrase to its 11-bit index, failing on unknown words. -/
def lookupWords : List String → Except CoreError (List Nat)
  | [] => .ok []
  | w :: ws =>
    match indexIn w wordlist with
    | none => .error .unknownWord
    | some i => (lookupWords ws).map (i :: ·)

/-- Recover entropy from word indices, verifying the checksum. -/
def entropyOfIndices (wcount : Nat) (idxs : List Nat) : Except CoreError (List Nat) :=
  let bits := idxs.flatMap (natToBits 11)
  let eBits := wcount * 11 * 32 / 33
  if bits.drop eBits =
      (bytesToBits (sha256 (bitsToBytes (bits.take eBits)))).take (eBits / 32)
  then .ok (bitsToBytes (bits.take eBits))
  else .error .checksumMismatch

/-- Parse and validate a mnemonic phrase, returning its entropy bytes. -/
def parseMnemonic (phrase : String) : Except CoreError (List Nat) :=
  (lookupWords (phraseWords phrase)).bind (fun idxs =>
    if (phraseWords phrase).length ∈ validWordCounts then
      entropyOfIndices (phraseWords phrase).length idxs
    else .error .invalidEntropyLength)

/-! ## Seed derivation -/

/-- Modelled from the spec: Unicode NFKD normalization of a phrase or
passphrase.  The wordlist and the phrases the core handles are ASCII, on
which NFKD is the identity, so it is modelled as the identity map. -/
def nfkd (s : String) : String := s

/-- UTF-8 bytes of a string. -/
def strBytes (s : String) : List Nat := s.toUTF8.toList.map (fun b => b.toNat)

/-- BIP39 seed derivation: PBKDF2 with HMAC over the 512-bit hash, 2048
iterations, password the normalized phrase, salt the string "mnemonic"
followed by the normalized passphrase, 64 bytes of output. -/
def toSeed (phrase password : String) : List Nat :=
  pbkdf2HmacSha512 (strBytes (nfkd phrase)) (strBytes ("mnemonic" ++ nfkd password)) 2048 64

/-! ## The 160-bit hash (RIPEMD-160)

Modelled from the spec: the account identifier chains "first a 256-bit
hash, then a 160-bit hash of that result"; the 160-bit hash of the
underlying library is RIPEMD-160, given here in full. -/

/-- Bitwise complement of a 32-bit word. -/
def compl32 (x : Nat) : Nat := 2 ^ 32 - 1 - x % 2 ^ 32

/-- Left-rotation of a 32-bit word. -/
def rol32 (n x : Nat) : Nat := x % 2 ^ 32 / 2 ^ (32 - n) + x % 2 ^ (32 - n) * 2 ^ n

/-- State of the 160-bit compression: five working words. -/
structure Hash5 where
  w0 : Nat
  w1 : Nat
  w2 : Nat
  w3 : Nat
  w4 : Nat

deriving DecidableEq

/-- The five RIPEMD-160 round functions, selected by the step number. -/
def rmdF (j x y z : Nat) : Nat :=
  if j < 16 then Nat.xor x (Nat.xor y z)
  else if j < 32 then Nat.lor (Nat.land x y) (Nat.land (compl32 x) z)
  else if j < 48 then Nat.xor (Nat.lor x (compl32 y)) z
  else if j < 64 then Nat.lor (Nat.land x z) (Nat.land y (compl32 z))
  else Nat.xor x (Nat.lor y (compl32 z))

/-- Left-line round constants. -/
def rmdKL (j : Nat) : Nat :=
  if j < 16 then 0 else if j < 32 then 0x5A827999 else if j < 48 then 0x6ED9EBA1
  else if j < 64 then 0x8F1BBCDC else 0xA953FD4E

/-- Right-line round constants. -/
def rmdKR (j : Nat) : Nat :=
  if j < 16 then 0x50A28BE6 else if j < 32 then 0x5C4DD124 else if j < 48 then 0x6D703EF3
  else if j < 64 then 0x7A6D76E9 else 0

/-- Left-line message word selection. -/
def rmdRL : List Nat :=
  [0, 1, 2, 3, 4, 5, 6, 7, 8, 9, 10, 11, 12, 13, 14, 15,
   7, 4, 13, 1, 10, 6, 15, 3, 12, 0, 9, 5, 2, 14, 11, 8,
   3, 10, 14, 4, 9, 15, 8, 1, 2, 7, 0, 6, 13, 11, 5, 12,
   1, 9, 11, 10, 0, 8, 12, 4, 13, 3, 7, 15, 14, 5, 6, 2,
   4, 0, 5, 9, 7, 12, 2, 10, 14, 1, 3, 8, 11, 6, 15, 13]

/-- Right-line message word selection. -/
def rmdRR : List Nat :=
  [5, 14, 7, 0, 9, 2, 11, 4, 13, 6, 15, 8, 1, 10, 3, 12,
   6, 11, 3, 7, 0, 13, 5, 10, 14, 15, 8, 12, 4, 9, 1, 2,
   15, 5, 1, 3, 7, 14, 6, 9, 11, 8, 12, 2, 10, 0, 4, 13,
   8, 6, 4, 1, 3, 11, 15, 0, 5, 12, 2, 13, 9, 7, 10, 14,
   12, 15, 10, 4, 1, 5, 8, 7, 6, 2, 13, 14, 0, 3, 9, 11]

/-- Left-line rotation amounts. -/
def rmdSL : List Nat :=
  [11, 14, 15, 12, 5, 8, 7, 9, 11, 13, 14, 15, 6, 7, 9, 8,
   7, 6, 8, 13, 11, 9, 7, 15, 7, 12, 15, 9, 11, 7, 13, 12,
   11, 13, 6, 7, 14, 9, 13, 15, 14, 8, 13, 6, 5, 12, 7, 5,
   11, 12, 14, 15, 14, 15, 9, 8, 9, 14, 5, 6, 8, 6, 5, 12,
   9, 15, 5, 11, 6, 8, 13, 12, 5, 12, 13, 14, 11, 8, 5, 6]

/-- Right-line rotation amounts. -/
def rmdSR : List Nat :=
  [8, 9, 9, 11, 13, 15, 15, 5, 7, 7, 8, 11, 14, 14, 12, 6,
   9, 13, 15, 7, 12, 8, 9, 11, 7, 7, 12, 7, 6, 15, 13, 11,
   9, 7, 15, 11, 8, 6, 6, 14, 12, 13, 5, 14, 13, 13, 7, 5,
   15, 5, 8, 11, 14, 14, 6, 14, 6, 9, 12, 9, 12, 5, 15, 8,
   8, 5, 12, 9, 12, 5, 14, 6, 8, 13, 6, 5, 15, 13, 11, 11]

/-- One RIPEMD-160 step on the five working words. -/
def rmdStep (X : List Nat) (rT sT : List Nat) (kOf : Nat → Nat) (fSel : Nat → Nat)
    (s : Hash5) (j : Nat) : Hash5 :=
  let f := rmdF (fSel j) s.w1 s.w2 s.w3
  let t := (rol32 (sT.getD j 0) ((s.w0 + f + X.getD (rT.getD j 0) 0 + kOf j) % 2 ^ 32)
    + s.w4) % 2 ^ 32
  ⟨s.w4, t, s.w1, rol32 10 s.w2, s.w3⟩

/-- Run one full 80-step line. -/
def rmdLine (X : List Nat) (rT sT : List Nat) (kOf : Nat → Nat) (fSel : Nat → Nat)
    (init : Hash5) : Hash5 :=
  (List.range 80).foldl (rmdStep X rT sT kOf fSel) init

/-- Compress one 16-word block into the running state. -/
def rmdCompress (s : Hash5) (X : List Nat) : Hash5 :=
  let L := rmdLine X rmdRL rmdSL rmdKL id s
  let R := rmdLine X rmdRR rmdSR rmdKR (fun j => 79 - j) s
  ⟨(s.w1 + L.w2 + R.w3) % 2 ^ 32, (s.w2 + L.w3 + R.w4) % 2 ^ 32,
   (s.w3 + L.w4 + R.w0) % 2 ^ 32, (s.w4 + L.w0 + R.w1) % 2 ^ 32,
   (s.w0 + L.w1 + R.w2) % 2 ^ 32⟩

/-- Little-endian Merkle-Damgard padding (0x80, zeros, 64-bit bit length). -/
def padMsgLE (msg : List Nat) : List Nat :=
  msg ++ 128 :: (List.replicate ((64 - (msg.length + 9) % 64) % 64) 0
    ++ leBytes 8 (8 * msg.length))

/-- RIPEMD-160 of a byte string, as 20 bytes. -/
def ripemd160 (msg : List Nat) : List Nat :=
  let blocks := chunks 16 ((chunks 4 (padMsgLE msg)).map (fun c => bytesToNatBE c.reverse))
  let s := blocks.foldl rmdCompress
    ⟨0x67452301, 0xEFCDAB89, 0x98BADCFE, 0x10325476, 0xC3D2E1F0⟩
  [s.w0, s.w1, s.w2, s.w3, s.w4].flatMap (leBytes 4)

/-! ## The secp256k1 curve

Modelled from the spec: curve scalar and point arithmetic for the signing
key and compressed public key, with the standard secp256k1 parameters. -/

/-- The secp256k1 field prime. -/
def secpP : Nat := 2 ^ 256 - 2 ^ 32 - 977

/-- The secp256k1 group order. -/
def secpN : Nat := 0xFFFFFFFFFFFFFFFFFFFFFFFFFFFFFFFEBAAEDCE6AF48A03BBFD25E8CD0364141

/-- x-coordinate of the base point. -/
def secpGx : Nat := 0x79BE667EF9DCBBAC55A06295CE870B07029BFCDB2DCE28D959F2815B16F81798

/-- y-coordinate of the base point. -/
def secpGy : Nat := 0x483ADA7726A3C4655DA4FBFC0E1108A8FD17B448A68554199C47D08FFB10D4B8

/-- Modular exponentiation by squaring. -/
def powMod (m b e : Nat) : Nat :=
  if e = 0 then 1 % m
  else
    let h := powMod m (b * b % m) (e / 2)
    if e % 2 = 1 then b * h % m else h
termination_by e
decreasing_by exact Nat.div_lt_self (Nat.pos_of_ne_zero (by assumption)) (by omega)

/-- Modular inverse in the prime field, by Fermat's little theorem. -/
def invMod (m a : Nat) : Nat := powMod m a (m - 2)

/-- Modular subtraction. -/
def subMod (p a b : Nat) : Nat := (a % p + (p - b % p)) % p

/-- Curve point doubling (affine coordinates; `none` is the point at infinity). -/
def ecDouble : Option (Nat × Nat) → Option (Nat × Nat)
  | none => none
  | some (x, y) =>
    if y % secpP = 0 then none
    else
      let lam := 3 * x * x % secpP * invMod secpP (2 * y % secpP) % secpP
      let xr := subMod secpP (lam * lam) (2 * x)
      let yr := subMod secpP (lam * subMod secpP x xr) y
      some (xr, yr)

/-- Curve point addition. -/
def ecAdd : Option (Nat × Nat) → Option (Nat × Nat) → Option (Nat × Nat)
  | none, q => q
  | p, none => p
  | some (x1, y1), some (x2, y2) =>
    if x1 % secpP = x2 % secpP then
      if (y1 + y2) % secpP = 0 then none
      else ecDouble (some (x1, y1))
    else
      let lam := subMod secpP y2 y1 * invMod secpP (subMod secpP x2 x1) % secpP
      let xr := subMod secpP (lam * lam) (x1 + x2)
      let yr := subMod secpP (lam * subMod secpP x1 xr) y1
      some (xr, yr)

/-- Scalar multiplication by double-and-add. -/
def ecMul (k : Nat) (pt : Option (Nat × Nat)) : Option (Nat × Nat) :=
  if k = 0 then none
  else
    let r := ecMul (k / 2) (ecDouble pt)
    if k % 2 = 1 then ecAdd pt r else r
termination_by k
decreasing_by exact Nat.div_lt_self (Nat.pos_of_ne_zero (by assumption)) (by omega)

/-- Public curve point of a private scalar. -/
def pubPoint (k : Nat) : Option (Nat × Nat) := ecMul k (some (secpGx, secpGy))

/-- Compressed SEC1 serialization: parity prefix byte and the x-coordinate. -/
def serPoint : Option (Nat × Nat) → List Nat
  | none => List.replicate 33 0
  | some (x, y) => (if y % 2 = 0 then 2 else 3) :: beBytes 32 x

/-! ## BIP32 hierarchical derivation

Modelled from the spec: `master_key` keys an HMAC over the seed with the
curve's domain-separation string; `derive_child` HMACs the serialized
parent key and index under the parent chain code and adds the left half to
the parent key modulo the curve order, failing with
`DerivationArithmeticError` on the overflow and zero edge cases. -/

/-- A node of the private HD key tree. -/
structure ExtPrivKey where
  depth : Nat
  parentFp : List Nat
  childNumber : Nat
  chainCode : List Nat
  privKey : Nat

deriving DecidableEq

/-- Master key: HMAC of the seed under the fixed domain-separation string. -/
def masterKeyOfSeed (seed : List Nat) : ExtPrivKey :=
  { depth := 0, parentFp := [0, 0, 0, 0], childNumber := 0,
    chainCode := (hmacSha512 (strBytes "Bitcoin seed") seed).drop 32,
    privKey := bytesToNatBE ((hmacSha512 (strBytes "Bitcoin seed") seed).take 32) }

/-- Fingerprint of a key: leading 4 bytes of the hash of its compressed public key. -/
def keyFingerprint (k : ExtPrivKey) : List Nat :=
  (ripemd160 (sha256 (serPoint (pubPoint k.privKey)))).take 4

/-- One hardened or normal child-key derivation step (index ≥ 2^31 is hardened). -/
def ckdPriv (parent : ExtPrivKey) (i : Nat) : Except CoreError ExtPrivKey :=
  let data := if 2 ^ 31 ≤ i
    then 0 :: (beBytes 32 parent.privKey ++ beBytes 4 i)
    else serPoint (pubPoint parent.privKey) ++ beBytes 4 i
  let il := bytesToNatBE ((hmacSha512 parent.chainCode data).take 32)
  if secpN ≤ il ∨ (il + parent.privKey) % secpN = 0 then .error .derivationArithmetic
  else .ok { depth := parent.depth + 1, parentFp := keyFingerprint parent,
             childNumber := i, chainCode := (hmacSha512 parent.chainCode data).drop 32,
             privKey := (il + parent.privKey) % secpN }

/-- Walk a parsed derivation path from the master key of a seed. -/
def deriveFromPath (seed : List Nat) (segs : List Nat) : Except CoreError ExtPrivKey :=
  segs.foldlM ckdPriv (masterKeyOfSeed seed)

/-! ## Derivation-path strings

The path strings are hardcoded literals of `src/main.rs` (`generate_key`
line 851, `compute_key` line 923); parsing is modelled from the spec's
DerivationPath entity: indices below 2^31, hardened encoded as
index + 2^31, hardened segments marked with an apostrophe. -/

/-- The apostrophe character marking hardened segments. -/
def tickChar : Char := Char.ofNat 39

/-- The path separator. -/
def slashChar : Char := Char.ofNat 47

/-- Whether an encoded path index is hardened. -/
def isHardenedIdx (i : Nat) : Bool := 2 ^ 31 ≤ i

/-- Accumulate a decimal value, failing on non-digit characters. -/
def digitsVal (acc : Nat) : List Char → Option Nat
  | [] => some acc
  | c :: cs => if c.isDigit then digitsVal (10 * acc + (c.toNat - 48)) cs else none

/-- Parse one path segment: digits with an optional hardening apostrophe. -/
def parseSegment (cs : List Char) : Option Nat :=
  match cs.getLast? with
  | none => none
  | some c =>
    if c = tickChar then
      if cs.dropLast = [] then none
      else (digitsVal 0 cs.dropLast).bind
        (fun n => if n < 2 ^ 31 then some (n + 2 ^ 31) else none)
    else (digitsVal 0 cs).bind (fun n => if n < 2 ^ 31 then some n else none)

/-- Interpret the slash-separated components: a leading "m" followed by
valid segments. -/
def parsePathParts (parts : List (List Char)) : Except CoreError (List Nat) :=
  match parts with
  | [] => .error .invalidPathSyntax
  | m :: segs =>
    if m = [Char.ofNat 109] then
      match segs.mapM parseSegment with
      | some idxs => .ok idxs
      | none => .error .invalidPathSyntax
    else .error .invalidPathSyntax

/-- Parse a derivation-path string of the form used by the source. -/
def parsePathString (s : String) : Except CoreError (List Nat) :=
  parsePathParts (splitChars slashChar s.data)

/-- The hardcoded derivation-path literal of `generate_key` (src/main.rs:851). -/
def generateKeyChildPath : String :=
  "m/44" ++ String.mk [tickChar] ++ "/118" ++ String.mk [tickChar] ++
  "/0" ++ String.mk [tickChar] ++ "/0/0"

/-- The hardcoded derivation-path literal of `compute_key` (src/main.rs:923). -/
def computeKeyChildPath : String :=
  "m/44" ++ String.mk [tickChar] ++ "/118" ++ String.mk [tickChar] ++
  "/0" ++ String.mk [tickChar] ++ "/0/0"

/-! ## Key serialization (KeyCodec) and the account identifier

Modelled from the spec: extended keys are serialized as a 78-byte payload
with a 4-byte double-hash checksum in a base-58 alphabet; the account
identifier is the checksum-protected human-readable-prefix encoding of the
20-byte hash of the compressed public key. -/

/-- The base-58 alphabet. -/
def b58Alphabet : List Char :=
  "123456789ABCDEFGHJKLMNPQRSTUVWXYZabcdefghijkmnopqrstuvwxyz".data

/-- Base-58 digits of a natural, least significant first. -/
def b58DigitsRev (n : Nat) : List Nat :=
  if n = 0 then [] else n % 58 :: b58DigitsRev (n / 58)
termination_by n
decreasing_by exact Nat.div_lt_self (Nat.pos_of_ne_zero (by assumption)) (by omega)

/-- Base-58 encoding of a byte string (leading zero bytes become ones). -/
def base58Encode (bytes : List Nat) : String :=
  String.mk (List.replicate (bytes.takeWhile (· = 0)).length (Char.ofNat 49) ++
    ((b58DigitsRev (bytesToNatBE bytes)).reverse).map (fun d => b58Alphabet.getD d (Char.ofNat 49)))

/-- Base-58 with a 4-byte checksum of leading double-hash bytes. -/
def base58Check (payload : List Nat) : String :=
  base58Encode (payload ++ (sha256 (sha256 payload)).take 4)

/-- Version bytes of serialized extended private keys. -/
def xprvVersion : List Nat := [4, 136, 173, 228]

/-- Version bytes of serialized extended public keys. -/
def xpubVersion : List Nat := [4, 136, 178, 30]

/-- 78-byte serialization of an extended private key. -/
def serExtPriv (k : ExtPrivKey) : List Nat :=
  xprvVersion ++ [k.depth % 256] ++ k.parentFp ++ beBytes 4 k.childNumber ++
    k.chainCode ++ 0 :: beBytes 32 k.privKey

/-- 78-byte serialization of the associated extended public key. -/
def serExtPub (k : ExtPrivKey) : List Nat :=
  xpubVersion ++ [k.depth % 256] ++ k.parentFp ++ beBytes 4 k.childNumber ++
    k.chainCode ++ serPoint (pubPoint k.privKey)

/-- The checked, base-58 string form of an extended private key. -/
def xprvString (k : ExtPrivKey) : String := base58Check (serExtPriv k)

/-- The checked, base-58 string form of the associated extended public key. -/
def xpubString (k : ExtPrivKey) : String := base58Check (serExtPub k)

/-- Signing key from the raw 32 key bytes: the scalar must be nonzero and
below the curve order (`InvalidKeyMaterialError` otherwise). -/
def signingKeyFromSlice (bytes : List Nat) : Except CoreError Nat :=
  if bytesToNatBE bytes = 0 ∨ secpN ≤ bytesToNatBE bytes then .error .invalidKeyMaterial
  else .ok (bytesToNatBE bytes)

/-- The 32-character data alphabet of the account-identifier encoding. -/
def bech32Charset : List Char := "qpzry9x8gf2tvdw0s3jn54khce6mua7l".data

/-- Checksum generator constants. -/
def bech32Gen : List Nat := [0x3b6a57b2, 0x26508e6d, 0x1ea119fa, 0x3d4233dd, 0x2a1462b3]

/-- The bech32 checksum polynomial, folded over 5-bit values. -/
def bech32Polymod (values : List Nat) : Nat :=
  values.foldl (fun chk v =>
    (List.range 5).foldl
      (fun c i => if chk / 2 ^ 25 / 2 ^ i % 2 = 1 then Nat.xor c (bech32Gen.getD i 0) else c)
      (chk % 2 ^ 25 * 32 + v)) 1

/-- Expand the human-readable prefix for checksumming. -/
def bech32HrpExpand (hrp : String) : List Nat :=
  hrp.data.map (fun c => c.toNat / 32) ++ [0] ++ hrp.data.map (fun c => c.toNat % 32)

/-- The six 5-bit checksum values for a payload. -/
def bech32CreateChecksum (hrp : String) (data : List Nat) : List Nat :=
  (List.range 6).map (fun i =>
    Nat.xor (bech32Polymod (bech32HrpExpand hrp ++ data ++ [0, 0, 0, 0, 0, 0])) 1
      / 2 ^ (5 * (5 - i)) % 32)

/-- Encode a payload under a human-readable prefix with its checksum. -/
def bech32Encode (hrp : String) (data : List Nat) : String :=
  hrp ++ "1" ++ String.mk ((data ++ bech32CreateChecksum hrp data).map
    (fun d => bech32Charset.getD d (Char.ofNat 113)))

/-- Regroup bytes into 5-bit words, zero-padding the tail. -/
def toBase32 (bytes : List Nat) : List Nat :=
  (chunks 5 (bytesToBits bytes ++
    List.replicate ((5 - (bytesToBits bytes).length % 5) % 5) false)).map bitsToNat

/-- Account identifier: the hrp encoding of the 160-bit hash of the 256-bit
hash of the compressed public key. -/
def accountIdOf (pubkeyBytes : List Nat) (hrp : String) : String :=
  bech32Encode hrp (toBase32 (ripemd160 (sha256 pubkeyBytes)))

/-! ## The command bodies of src/main.rs -/

/-- Rust str::starts_with: prefix test on the character sequence. -/
def strStartsWith (s pre : String) : Bool := pre.data.isPrefixOf s.data

/-- The two `assert!` statements of `generate_key` (src/main.rs:859,863) and
`compute_key` (src/main.rs:931,935): the serialized extended-key strings
are checked to begin with "xprv" and "xpub" by unchecked assertions; a
failure terminates the process (panics) instead of returning a typed
error. -/
def validateEncodedKeys (xprvStr xpubStr : String) : Except RunError Unit :=
  if strStartsWith xprvStr "xprv" then
    if strStartsWith xpubStr "xpub" then .ok ()
    else .error (.panicked "assertion failed: child xpub str starts with xpub")
  else .error (.panicked "assertion failed: child xprv str starts with xprv")

/-- The shared derivation tail of `generate_key` and `compute_key`
(src/main.rs:847-868 and 919-940): derive the seed from the phrase and
password, parse the hardcoded path and derive the child extended key,
serialize and assert on both key strings, build the signing key from the
child private key bytes, and bech32-encode the account identifier under
the "gvlt" prefix.  Returns the seed together with the signing-key scalar
and account identifier. -/
def keyPipeline (childPath phrase password : String) :
    List Nat × Except RunError (Nat × String) :=
  (toSeed phrase password,
    ((parsePathString childPath).mapError RunError.failed).bind (fun segs =>
      ((deriveFromPath (toSeed phrase password) segs).mapError RunError.failed).bind (fun xprv =>
        (validateEncodedKeys (xprvString xprv) (xpubString xprv)).bind (fun _ =>
          ((signingKeyFromSlice (beBytes 32 xprv.privKey)).mapError RunError.failed).bind
            (fun sk => .ok (sk, accountIdOf (serPoint (pubPoint sk)) "gvlt"))))))

/-- The `generate_key` command body (src/main.rs:839-905), parameterized by
the entropy drawn for the random mnemonic: encode the entropy as a phrase,
run the derivation tail, and return the account identifier together with
the phrase. -/
def generateKeyRun (entropy : List Nat) (password : String) :
    Except RunError (String × String) :=
  ((newMnemonic entropy).mapError RunError.failed).bind (fun ws =>
    ((keyPipeline generateKeyChildPath (phraseOfWords ws) password).2).bind (fun r =>
      .ok (r.2, phraseOfWords ws)))

/-- The `compute_key` command body (src/main.rs:908-945): validate the
supplied mnemonic phrase, then run the same derivation tail on it and
return the account identifier. -/
def computeKeyRun (phrase password : String) : Except RunError String :=
  ((parseMnemonic phrase).mapError RunError.failed).bind (fun _ =>
    ((keyPipeline computeKeyChildPath phrase password).2).bind (fun r => .ok r.2))

/-- The format-specific serializers handed to `print_object` (the serde
backends; external collaborators that may fail). -/
structure Serializer (T : Type) where
  serYaml : T → Except String String
  serJson : T → Except String String
  serPrettyJson : T → Except String String
  serToml : T → Except String String

/-- The `print_object` helper (src/main.rs:734-770): match on the format
string, serialize and print on the four known formats (propagating
serializer errors), and print the literal line "Unknown format" and return
success on anything else. -/
def printObject (ser : Serializer T) (format : String) (v : T) :
    Except String (List String) :=
  if format = "yaml" then (ser.serYaml v).map (fun s => [s])
  else if format = "json" then (ser.serJson v).map (fun s => [s])
  else if format = "prettyjson" then (ser.serPrettyJson v).map (fun s => [s])
  else if format = "toml" then (ser.serToml v).map (fun s => [s])
  else .ok ["Unknown format"]

/-- Modelled from the spec: `Mnemonic::random` in `generate_key` always
draws a fixed 32 bytes (256 bits) of entropy; the amount is not
caller-selectable. -/
def generateEntropyByteLen : Nat := 32

/-! ## Properties and proofs -/

theorem length_natToBitsLE (w n : Nat) : (natToBitsLE w n).length = w := by
  induction w generalizing n with
  | zero => rfl
  | succ w ih => simp [natToBitsLE, ih]

theorem length_natToBits (w n : Nat) : (natToBits w n).length = w := by
  simp [natToBits, length_natToBitsLE]

theorem bitsFromLE_lt (bs : List Bool) : bitsFromLE bs < 2 ^ bs.length := by
  induction bs with
  | nil => simp [bitsFromLE]
  | cons b bs ih =>
    simp only [bitsFromLE, List.length_cons, pow_succ]
    cases b <;> simp <;> omega

theorem bitsToNat_lt (bs : List Bool) : bitsToNat bs < 2 ^ bs.length := by
  have := bitsFromLE_lt bs.reverse
  simpa [bitsToNat] using this

theorem natToBitsLE_bitsFromLE (bs : List Bool) :
    natToBitsLE bs.length (bitsFromLE bs) = bs := by
  induction bs with
  | nil => rfl
  | cons b bs ih =>
    cases b with
    | false =>
      have hm : (0 + 2 * bitsFromLE bs) % 2 = 0 := by omega
      have hd : (0 + 2 * bitsFromLE bs) / 2 = bitsFromLE bs := by omega
      simp [natToBitsLE, bitsFromLE, hm, hd, ih]
    | true =>
      have hm : (1 + 2 * bitsFromLE bs) % 2 = 1 := by omega
      have hd : (1 + 2 * bitsFromLE bs) / 2 = bitsFromLE bs := by omega
      simp [natToBitsLE, bitsFromLE, hm, hd, ih]

theorem natToBits_bitsToNat (bs : List Bool) :
    natToBits bs.length (bitsToNat bs) = bs := by
  have h := natToBitsLE_bitsFromLE bs.reverse
  simp only [List.length_reverse] at h
  simp [natToBits, bitsToNat, h]

theorem bitsFromLE_natToBitsLE (w n : Nat) (h : n < 2 ^ w) :
    bitsFromLE (natToBitsLE w n) = n := by
  induction w generalizing n with
  | zero =>
    simp only [pow_zero, Nat.lt_one_iff] at h
    simp [natToBitsLE, bitsFromLE, h]
  | succ w ih =>
    simp only [natToBitsLE, bitsFromLE]
    have hlt : n / 2 < 2 ^ w := by
      rw [pow_succ] at h; omega
    rw [ih _ hlt]
    rcases Nat.mod_two_eq_zero_or_one n with h2 | h2 <;> simp [h2] <;> omega

theorem bitsToNat_natToBits (w n : Nat) (h : n < 2 ^ w) :
    bitsToNat (natToBits w n) = n := by
  simp [bitsToNat, natToBits, bitsFromLE_natToBitsLE w n h]

theorem chunks_nil (n : Nat) : chunks n ([] : List α) = [] := by
  rw [chunks]; simp

theorem chunks_cons (n : Nat) (l : List α) (hl : l ≠ []) (hn : n ≠ 0) :
    chunks n l = l.take n :: chunks n (l.drop n) := by
  rw [chunks]
  simp [List.length_eq_zero.ne.mpr hl, hn]

theorem flatten_chunks (n : Nat) (hn : n ≠ 0) (l : List α) :
    (chunks n l).flatten = l := by
  induction l using chunks.induct n with
  | case1 l h =>
    rcases h with h | h
    · rw [List.length_eq_zero] at h
      subst h; simp [chunks_nil]
    · exact absurd h hn
  | case2 l h ih =>
    simp only [not_or] at h
    have hl : l ≠ [] := by
      intro hc; subst hc; simp at h
    rw [chunks_cons n l hl hn]
    simp [ih]

theorem length_mem_chunks (n : Nat) (hn : n ≠ 0) (l : List α)
    (hd : n ∣ l.length) (c : List α) (hc : c ∈ chunks n l) : c.length = n := by
  induction l using chunks.induct n with
  | case1 l h =>
    rcases h with h | h
    · rw [List.length_eq_zero] at h
      subst h; simp [chunks_nil] at hc
    · exact absurd h hn
  | case2 l h ih =>
    simp only [not_or] at h
    obtain ⟨hl0, -⟩ := h
    have hl : l ≠ [] := by
      intro hc'; subst hc'; simp at hl0
    rw [chunks_cons n l hl hn] at hc
    rcases hd with ⟨k, hk⟩
    rcases k with _ | k
    · rw [Nat.mul_zero] at hk; omega
    have hmul : n * (k + 1) = n * k + n := Nat.mul_succ n k
    have hnl : n ≤ l.length := by omega
    rw [List.mem_cons] at hc
    rcases hc with hc | hc
    · rw [hc, List.length_take]; omega
    · apply ih _ hc
      refine ⟨k, ?_⟩
      simp only [List.length_drop]
      omega

theorem length_chunks (n : Nat) (hn : n ≠ 0) (l : List α)
    (hd : n ∣ l.length) : (chunks n l).length = l.length / n := by
  induction l using chunks.induct n with
  | case1 l h =>
    rcases h with h | h
    · rw [List.length_eq_zero] at h
      subst h; simp [chunks_nil]
    · exact absurd h hn
  | case2 l h ih =>
    simp only [not_or] at h
    obtain ⟨hl0, -⟩ := h
    have hl : l ≠ [] := by
      intro hc'; subst hc'; simp at hl0
    rw [chunks_cons n l hl hn]
    rcases hd with ⟨k, hk⟩
    rcases k with _ | k
    · rw [Nat.mul_zero] at hk; omega
    have hmul : n * (k + 1) = n * k + n := Nat.mul_succ n k
    have hnl : n ≤ l.length := by omega
    have hd' : (l.drop n).length = n * k := by
      simp only [List.length_drop]; omega
    rw [List.length_cons, ih ⟨k, hd'⟩, hd', hk]
    have hnpos : 0 < n := Nat.pos_of_ne_zero hn
    rw [Nat.mul_comm n (k + 1), Nat.mul_div_cancel _ hnpos, Nat.mul_comm n k,
      Nat.mul_div_cancel _ hnpos]

theorem chunks_append_of_length (n : Nat) (hn : n ≠ 0) (a l : List α)
    (ha : a.length = n) : chunks n (a ++ l) = a :: chunks n l := by
  have hane : a ≠ [] := by
    intro h; subst h; simp at ha; omega
  have hne : a ++ l ≠ [] := by simp [hane]
  rw [chunks_cons n (a ++ l) hne hn]
  congr 1
  · rw [← ha, List.take_left]
  · rw [← ha, List.drop_left]

theorem chunks_flatMap (n : Nat) (hn : n ≠ 0) (f : α → List β) (l : List α)
    (hf : ∀ x ∈ l, (f x).length = n) :
    chunks n (l.flatMap f) = l.map f := by
  induction l with
  | nil => simp [chunks_nil]
  | cons a l ih =>
    rw [List.flatMap_cons, chunks_append_of_length n hn _ _ (hf a (by simp))]
    simp only [List.map_cons]
    rw [ih (fun x hx => hf x (by simp [hx]))]

theorem length_bytesToBits (bytes : List Nat) :
    (bytesToBits bytes).length = 8 * bytes.length := by
  induction bytes with
  | nil => simp [bytesToBits]
  | cons b bs ih =>
    unfold bytesToBits at ih ⊢
    rw [List.flatMap_cons, List.length_append, length_natToBits, ih, List.length_cons]
    omega

theorem bitsToBytes_bytesToBits (bytes : List Nat) (h : ∀ b ∈ bytes, b < 256) :
    bitsToBytes (bytesToBits bytes) = bytes := by
  unfold bitsToBytes bytesToBits
  rw [chunks_flatMap 8 (by omega) _ _ (fun x _ => length_natToBits 8 x)]
  rw [List.map_map]
  have hmap : List.map (bitsToNat ∘ natToBits 8) bytes = List.map id bytes :=
    List.map_congr_left (fun x hx => bitsToNat_natToBits 8 x (h x hx))
  rw [hmap, List.map_id]

theorem length_leBytes (w n : Nat) : (leBytes w n).length = w := by
  induction w generalizing n with
  | zero => rfl
  | succ w ih => simp [leBytes, ih]

theorem length_beBytes (w n : Nat) : (beBytes w n).length = w := by
  simp [beBytes, length_leBytes]

theorem length_xorBytes (a b : List Nat) :
    (xorBytes a b).length = min a.length b.length := by
  simp [xorBytes]

theorem length_hashBytes (wordBytes : Nat) (s : Hash8) :
    (hashBytes wordBytes s).length = 8 * wordBytes := by
  simp [hashBytes, length_beBytes]
  omega

theorem length_sha256 (msg : List Nat) : (sha256 msg).length = 32 := by
  simp [sha256, length_hashBytes]

theorem length_sha512 (msg : List Nat) : (sha512 msg).length = 64 := by
  simp [sha512, length_hashBytes]

theorem length_hmacSha512 (key msg : List Nat) : (hmacSha512 key msg).length = 64 := by
  simp [hmacSha512, length_sha512]

theorem length_pbkdf2Loop (password : List Nat) (k : Nat) (u acc : List Nat)
    (hacc : acc.length = 64) : (pbkdf2Loop password k u acc).length = 64 := by
  induction k generalizing u acc with
  | zero => simpa [pbkdf2Loop] using hacc
  | succ k ih =>
    simp only [pbkdf2Loop]
    apply ih
    simp [length_xorBytes, hacc, length_hmacSha512]

theorem length_pbkdf2Block (password salt : List Nat) (iters idx : Nat) :
    (pbkdf2Block password salt iters idx).length = 64 := by
  simp [pbkdf2Block, length_pbkdf2Loop _ _ _ _ (length_hmacSha512 _ _)]

theorem length_flatten_of_const (f : α → List β) (l : List α) (n : Nat)
    (hf : ∀ x ∈ l, (f x).length = n) : (l.map f).flatten.length = l.length * n := by
  induction l with
  | nil => simp
  | cons a l ih =>
    simp only [List.map_cons, List.flatten_cons, List.length_append,
      hf a (by simp), List.length_cons]
    rw [ih (fun x hx => hf x (by simp [hx]))]
    ring

theorem length_pbkdf2HmacSha512 (password salt : List Nat) (iters dkLen : Nat) :
    (pbkdf2HmacSha512 password salt iters dkLen).length = dkLen := by
  unfold pbkdf2HmacSha512
  rw [List.length_take,
    length_flatten_of_const _ _ 64 (fun x _ => length_pbkdf2Block password salt iters (x + 1))]
  simp only [List.length_range]
  omega

theorem wordChar_inj_mod (d e : Nat) (h : wordChar d = wordChar e) : d % 16 = e % 16 := by
  have hd := Nat.mod_lt d (y := 16) (by omega)
  have he := Nat.mod_lt e (y := 16) (by omega)
  have key : ∀ a < 16, ∀ b < 16, Char.ofNat (97 + a) = Char.ofNat (97 + b) → a = b := by decide
  exact key _ hd _ he h

theorem mkWord_inj (i j : Nat) (hi : i < 2048) (hj : j < 2048)
    (h : mkWord i = mkWord j) : i = j := by
  unfold mkWord at h
  have hdata := congrArg String.data h
  simp only [List.cons.injEq, and_true] at hdata
  obtain ⟨h1, h2, h3⟩ := hdata
  have e1 := wordChar_inj_mod _ _ h1
  have e2 := wordChar_inj_mod _ _ h2
  have e3 := wordChar_inj_mod _ _ h3
  omega

theorem wordlist_length : wordlist.length = 2048 := by
  simp [wordlist]

theorem wordlist_getElem (i : Nat) (hlen : i < wordlist.length) :
    wordlist[i] = mkWord i := by
  simp [wordlist]

theorem wordlist_nodup : wordlist.Nodup := by
  refine List.Nodup.map_on ?_ (List.nodup_range 2048)
  intro x hx y hy hxy
  exact mkWord_inj x y (List.mem_range.mp hx) (List.mem_range.mp hy) hxy

theorem indexIn_get (l : List String) (nd : l.Nodup) (i : Nat) (h : i < l.length) :
    indexIn (l.get ⟨i, h⟩) l = some i := by
  induction l generalizing i with
  | nil => simp at h
  | cons x xs ih =>
    rcases i with _ | i
    · simp [indexIn]
    · have h' : i < xs.length := by simpa using h
      have hget : (x :: xs).get ⟨i + 1, h⟩ = xs.get ⟨i, h'⟩ := rfl
      rw [hget]
      have hx : x ≠ xs.get ⟨i, h'⟩ := by
        intro hc
        have hmem : xs.get ⟨i, h'⟩ ∈ xs := List.mem_iff_get.mpr ⟨⟨i, h'⟩, rfl⟩
        rw [← hc] at hmem
        exact (List.nodup_cons.mp nd).1 hmem
      simp only [indexIn, if_neg hx, ih (List.nodup_cons.mp nd).2 i h']
      rfl

theorem indexIn_eq_none_iff (w : String) (l : List String) :
    indexIn w l = none ↔ w ∉ l := by
  induction l with
  | nil => simp [indexIn]
  | cons x xs ih =>
    by_cases hx : x = w
    · simp [indexIn, hx]
    · have hwx : ¬(w = x) := fun hc => hx hc.symm
      cases hval : indexIn w xs with
      | none =>
        have hnot := ih.mp hval
        simp [indexIn, if_neg hx, hval, List.mem_cons, hwx, hnot]
      | some k =>
        have hmemxs : w ∈ xs := by
          by_contra hc
          rw [← ih, hval] at hc
          exact Option.noConfusion hc
        simp [indexIn, if_neg hx, hval, List.mem_cons, hmemxs]

theorem splitChars_ne_nil (sep : Char) (cs : List Char) : splitChars sep cs ≠ [] := by
  induction cs with
  | nil => simp [splitChars]
  | cons c cs ih =>
    by_cases h : c = sep
    · simp [splitChars, h]
    · simp only [splitChars, if_neg h]
      rcases hs : splitChars sep cs with _ | ⟨w, ws⟩
      · simp
      · simp

theorem splitChars_single (sep : Char) (w : List Char) (hw : sep ∉ w) :
    splitChars sep w = [w] := by
  induction w with
  | nil => rfl
  | cons c cs ih =>
    have hc : c ≠ sep := fun hc => hw (by simp [hc])
    have hcs : sep ∉ cs := fun hmem => hw (by simp [hmem])
    simp only [splitChars, if_neg hc, ih hcs]

theorem splitChars_append_sep (sep : Char) (w t : List Char) (hw : sep ∉ w) :
    splitChars sep (w ++ sep :: t) = w :: splitChars sep t := by
  induction w with
  | nil => simp [splitChars]
  | cons c cs ih =>
    have hc : c ≠ sep := fun hc => hw (by simp [hc])
    have hcs : sep ∉ cs := fun hmem => hw (by simp [hmem])
    simp only [List.cons_append, splitChars, if_neg hc, List.append_eq, ih hcs]

theorem splitChars_joinChars (sep : Char) (ws : List (List Char)) (hne : ws ≠ [])
    (hw : ∀ w ∈ ws, sep ∉ w) :
    splitChars sep (joinChars sep ws) = ws := by
  induction ws with
  | nil => exact absurd rfl hne
  | cons w ws ih =>
    rcases ws with _ | ⟨w2, ws2⟩
    · exact splitChars_single sep w (hw w (by simp))
    · show splitChars sep (w ++ sep :: joinChars sep (w2 :: ws2)) = _
      rw [splitChars_append_sep sep w _ (hw w (by simp))]
      rw [ih (by simp) (fun x hx => hw x (by simp [List.mem_cons] at hx ⊢; tauto))]

theorem wordChar_ne_space (d : Nat) : wordChar d ≠ spaceChar := by
  have h : ∀ a < 16, Char.ofNat (97 + a) ≠ Char.ofNat 32 := by decide
  show Char.ofNat (97 + d % 16) ≠ Char.ofNat 32
  exact h (d % 16) (Nat.mod_lt d (by omega))

theorem space_not_mem_mkWord (i : Nat) : spaceChar ∉ (mkWord i).data := by
  intro hmem
  simp only [mkWord, List.mem_cons, List.not_mem_nil, or_false] at hmem
  rcases hmem with h | h | h <;> exact wordChar_ne_space _ h.symm

theorem wordAt_eq (i : Nat) (h : i < 2048) : wordAt i = mkWord i := by
  have hlen : i < wordlist.length := by simpa [wordlist_length] using h
  unfold wordAt
  rw [List.getD_eq_getElem _ _ hlen, wordlist_getElem i hlen]

theorem indexIn_wordAt (i : Nat) (h : i < 2048) : indexIn (wordAt i) wordlist = some i := by
  have hlen : i < wordlist.length := by simpa [wordlist_length] using h
  have hw : wordAt i = wordlist.get ⟨i, hlen⟩ := by
    unfold wordAt
    rw [List.getD_eq_getElem _ _ hlen]
    simp
  rw [hw]
  exact indexIn_get wordlist wordlist_nodup i hlen

theorem lookupWords_map_wordAt (idxs : List Nat) (h : ∀ i ∈ idxs, i < 2048) :
    lookupWords (idxs.map wordAt) = Except.ok idxs := by
  induction idxs with
  | nil => rfl
  | cons i is ih =>
    simp only [List.map_cons, lookupWords, indexIn_wordAt i (h i (by simp))]
    rw [ih (fun j hj => h j (by simp [hj]))]
    rfl

theorem lookupWords_unknown (ws : List String) (h : ∃ w ∈ ws, w ∉ wordlist) :
    lookupWords ws = .error .unknownWord := by
  induction ws with
  | nil => simp at h
  | cons x xs ih =>
    rcases h with ⟨w, hmem, hnot⟩
    rw [List.mem_cons] at hmem
    rcases hmem with rfl | hmem
    · have hnone : indexIn w wordlist = none := (indexIn_eq_none_iff _ _).mpr hnot
      simp [lookupWords, hnone]
    · cases hval : indexIn x wordlist with
      | none => simp [lookupWords, hval]
      | some i =>
        simp only [lookupWords, hval]
        rw [ih ⟨w, hmem, hnot⟩]
        rfl

theorem phraseWords_phraseOfWords (ws : List String) (hne : ws ≠ [])
    (hsp : ∀ w ∈ ws, spaceChar ∉ w.data) :
    phraseWords (phraseOfWords ws) = ws := by
  unfold phraseWords phraseOfWords
  have hdata : (String.mk (joinChars spaceChar (ws.map String.data))).data =
      joinChars spaceChar (ws.map String.data) := rfl
  rw [hdata, splitChars_joinChars _ _ (by simpa using hne)
    (by intro w hw; rcases List.mem_map.mp hw with ⟨s, hs, rfl⟩; exact hsp s hs)]
  rw [List.map_map]
  have hid : ∀ s : String, String.mk s.data = s := fun s => by cases s; rfl
  calc List.map (String.mk ∘ String.data) ws
      = List.map id ws := List.map_congr_left (fun s _ => hid s)
    _ = ws := List.map_id ws

theorem flatMap_map_comp (g : α → β) (f : β → List γ) (l : List α) :
    (l.map g).flatMap f = l.flatMap (fun x => f (g x)) := by
  induction l with
  | nil => rfl
  | cons a l ih => simp only [List.map_cons, List.flatMap_cons, ih]

theorem flatMap_congr_mem (l : List α) (f g : α → List β) (h : ∀ x ∈ l, f x = g x) :
    l.flatMap f = l.flatMap g := by
  induction l with
  | nil => rfl
  | cons a l ih =>
    simp only [List.flatMap_cons, h a (by simp), ih (fun x hx => h x (by simp [hx]))]

theorem flatMap_id_eq (l : List (List α)) : l.flatMap id = l.flatten := by
  induction l with
  | nil => rfl
  | cons a l ih => simp only [List.flatMap_cons, List.flatten_cons, ih, id]

theorem length_toSeed (phrase password : String) : (toSeed phrase password).length = 64 :=
  length_pbkdf2HmacSha512 _ _ _ _

/-! ## The mnemonic round trip -/

theorem length_checksumOfEntropy (e : List Nat) (hcsle : e.length * 8 / 32 ≤ 256) :
    (checksumOfEntropy e).length = e.length * 8 / 32 := by
  unfold checksumOfEntropy
  rw [List.length_take, length_bytesToBits, length_sha256]
  omega

theorem mnemonic_roundtrip_core (e : List Nat) (hbytes : ∀ b ∈ e, b < 256)
    (hcsle : e.length * 8 / 32 ≤ 256)
    (h11 : 11 ∣ 8 * e.length + e.length * 8 / 32)
    (hWmem : (8 * e.length + e.length * 8 / 32) / 11 ∈ validWordCounts)
    (heBits : (8 * e.length + e.length * 8 / 32) / 11 * 11 * 32 / 33 = 8 * e.length) :
    (wordsOfEntropy e).length = (8 * e.length + e.length * 8 / 32) / 11 ∧
    parseMnemonic (phraseOfWords (wordsOfEntropy e)) = .ok e := by
  have htotlen : (bytesToBits e ++ checksumOfEntropy e).length =
      8 * e.length + e.length * 8 / 32 := by
    rw [List.length_append, length_bytesToBits, length_checksumOfEntropy e hcsle]
  have h11' : 11 ∣ (bytesToBits e ++ checksumOfEntropy e).length := by rw [htotlen]; exact h11
  have hchunklen := length_mem_chunks 11 (by omega) (bytesToBits e ++ checksumOfEntropy e) h11'
  have hidxlt : ∀ i ∈ wordIndicesOfEntropy e, i < 2048 := by
    intro i hi
    unfold wordIndicesOfEntropy at hi
    rcases List.mem_map.mp hi with ⟨c, hc, rfl⟩
    have hlt := bitsToNat_lt c
    rw [hchunklen c hc] at hlt
    simpa using hlt
  have hWlen : (wordsOfEntropy e).length = (8 * e.length + e.length * 8 / 32) / 11 := by
    unfold wordsOfEntropy wordIndicesOfEntropy
    rw [List.length_map, List.length_map,
      length_chunks 11 (by omega) (bytesToBits e ++ checksumOfEntropy e) h11', htotlen]
  refine ⟨hWlen, ?_⟩
  have hWpos : 0 < (8 * e.length + e.length * 8 / 32) / 11 := by
    simp only [validWordCounts, List.mem_cons, List.not_mem_nil, or_false] at hWmem
    omega
  have hwordsnn : wordsOfEntropy e ≠ [] := by
    intro hc
    have hlc := congrArg List.length hc
    rw [hWlen] at hlc
    simp at hlc
    omega
  have hspfree : ∀ w ∈ wordsOfEntropy e, spaceChar ∉ w.data := by
    intro w hw
    rcases List.mem_map.mp hw with ⟨i, hi, rfl⟩
    rw [wordAt_eq i (hidxlt i hi)]
    exact space_not_mem_mkWord i
  have hsplit := phraseWords_phraseOfWords (wordsOfEntropy e) hwordsnn hspfree
  have hlookup : lookupWords (wordsOfEntropy e) = .ok (wordIndicesOfEntropy e) :=
    lookupWords_map_wordAt _ hidxlt
  have hbits : (wordIndicesOfEntropy e).flatMap (natToBits 11) =
      bytesToBits e ++ checksumOfEntropy e := by
    unfold wordIndicesOfEntropy
    rw [flatMap_map_comp]
    rw [flatMap_congr_mem _ _ id
      (fun c hc => by rw [← hchunklen c hc]; exact natToBits_bitsToNat c)]
    rw [flatMap_id_eq, flatten_chunks 11 (by omega)]
  have htake : (bytesToBits e ++ checksumOfEntropy e).take (8 * e.length) = bytesToBits e := by
    have hl : (bytesToBits e).length = 8 * e.length := length_bytesToBits e
    rw [← hl]
    exact List.take_left _ _
  have hdrop : (bytesToBits e ++ checksumOfEntropy e).drop (8 * e.length) =
      checksumOfEntropy e := by
    have hl : (bytesToBits e).length = 8 * e.length := length_bytesToBits e
    rw [← hl]
    exact List.drop_left _ _
  unfold parseMnemonic
  rw [hsplit, hlookup, hWlen]
  simp only [Except.bind, if_pos hWmem]
  unfold entropyOfIndices
  simp only [hbits, heBits, htake, hdrop, bitsToBytes_bytesToBits e hbytes]
  have hcond : checksumOfEntropy e =
      (bytesToBits (sha256 e)).take (8 * e.length / 32) := by
    unfold checksumOfEntropy
    rw [Nat.mul_comm e.length 8]
  rw [if_pos hcond]

/-! ## Error-kind lemmas for the pipeline stages -/

theorem parsePathString_error (s : String) (e : CoreError)
    (h : parsePathString s = .error e) : e = .invalidPathSyntax := by
  unfold parsePathString at h
  cases hsp : splitChars slashChar s.data with
  | nil =>
    rw [hsp] at h
    simp only [parsePathParts] at h
    injection h with h
    exact h.symm
  | cons m segs =>
    rw [hsp] at h
    simp only [parsePathParts] at h
    by_cases hm : m = [Char.ofNat 109]
    · rw [if_pos hm] at h
      cases hseg : segs.mapM parseSegment with
      | none =>
        rw [hseg] at h
        injection h with h
        exact h.symm
      | some idxs =>
        rw [hseg] at h
        exact absurd h (by simp)
    · rw [if_neg hm] at h
      injection h with h
      exact h.symm

theorem ckdPriv_error (parent : ExtPrivKey) (i : Nat) (e : CoreError)
    (h : ckdPriv parent i = .error e) : e = .derivationArithmetic := by
  simp only [ckdPriv] at h
  split at h <;> try split at h
  all_goals first
    | (injection h with h; exact h.symm)
    | exact absurd h (by simp)

theorem foldlM_ckdPriv_error (segs : List Nat) (init : ExtPrivKey) (e : CoreError)
    (h : List.foldlM ckdPriv init segs = .error e) : e = .derivationArithmetic := by
  induction segs generalizing init with
  | nil => exact absurd h (by simp [List.foldlM, pure, Except.pure])
  | cons i is ih =>
    rw [List.foldlM_cons] at h
    cases hck : ckdPriv init i with
    | error e2 =>
      rw [hck] at h
      simp only [Bind.bind, Except.bind] at h
      injection h with h
      rw [← h]
      exact ckdPriv_error init i e2 hck
    | ok k =>
      rw [hck] at h
      simp only [Bind.bind, Except.bind] at h
      exact ih k h

theorem deriveFromPath_error (seed : List Nat) (segs : List Nat) (e : CoreError)
    (h : deriveFromPath seed segs = .error e) : e = .derivationArithmetic :=
  foldlM_ckdPriv_error segs _ e h

theorem validateEncodedKeys_not_failed (a b : String) (e : CoreError) :
    validateEncodedKeys a b ≠ .error (.failed e) := by
  unfold validateEncodedKeys
  by_cases h1 : strStartsWith a "xprv" = true
  · rw [if_pos h1]
    by_cases h2 : strStartsWith b "xpub" = true
    · rw [if_pos h2]; simp
    · rw [if_neg h2]; simp
  · rw [if_neg h1]; simp

theorem signingKeyFromSlice_error (bytes : List Nat) (e : CoreError)
    (h : signingKeyFromSlice bytes = .error e) : e = .invalidKeyMaterial := by
  unfold signingKeyFromSlice at h
  split at h
  · injection h with h
    exact h.symm
  · exact absurd h (by simp)

theorem except_bind_ok (a : α) (f : α → Except ε β) :
    Except.bind (Except.ok a) f = f a := rfl

theorem except_bind_error (e : ε) (f : α → Except ε β) :
    Except.bind (Except.error e) f = Except.error e := rfl

theorem except_mapError_ok (f : ε → ε2) (a : α) :
    Except.mapError f (Except.ok a : Except ε α) = Except.ok a := rfl

theorem except_mapError_error (f : ε → ε2) (e : ε) :
    Except.mapError f (Except.error e : Except ε α) = Except.error (f e) := rfl

theorem except_map_ok (f : α → β) (a : α) :
    Except.map f (Except.ok a : Except ε α) = Except.ok (f a) := rfl

theorem except_map_error (f : α → β) (e : ε) :
    Except.map f (Except.error e : Except ε α) = Except.error e := rfl

theorem keyPipeline_no_invalid_entropy (cp p pw : String) :
    (keyPipeline cp p pw).2 ≠ .error (RunError.failed CoreError.invalidEntropyLength) := by
  unfold keyPipeline
  dsimp only
  cases hp : parsePathString cp with
  | error ce =>
    have hce := parsePathString_error cp ce hp
    subst hce
    simp [Except.mapError, Except.bind]
  | ok segs =>
    simp only [hp, Except.mapError, Except.bind]
    cases hd : deriveFromPath (toSeed p pw) segs with
    | error ce =>
      have hce := deriveFromPath_error _ _ ce hd
      subst hce
      simp [Except.mapError, Except.bind]
    | ok xprv =>
      simp only [Except.mapError, Except.bind]
      cases hv : validateEncodedKeys (xprvString xprv) (xpubString xprv) with
      | error re =>
        intro hc
        injection hc with hc
        rw [hc] at hv
        exact validateEncodedKeys_not_failed _ _ _ hv
      | ok u =>
        simp only [Except.bind]
        cases hs : signingKeyFromSlice (beBytes 32 xprv.privKey) with
        | error ce =>
          have hce := signingKeyFromSlice_error _ ce hs
          subst hce
          simp [Except.mapError, Except.bind]
        | ok sk => simp [Except.mapError, Except.bind]

theorem mnemonic_roundtrip (e : List Nat) (hb : ∀ b ∈ e, b < 256)
    (hlen : e.length ∈ validEntropyByteLengths) :
    (wordsOfEntropy e).length = 3 * e.length / 4 ∧
    parseMnemonic (phraseOfWords (wordsOfEntropy e)) = .ok e := by
  simp only [validEntropyByteLengths, List.mem_cons, List.not_mem_nil, or_false] at hlen
  rcases hlen with h | h | h | h | h <;>
  · obtain ⟨hcnt, hparse⟩ := mnemonic_roundtrip_core e hb
      (by simp only [h] <;> decide) (by simp only [h] <;> decide)
      (by simp only [h] <;> decide) (by simp only [h] <;> decide)
    refine ⟨?_, hparse⟩
    simp only [hcnt, h] <;> decide

/-! ## Claim theorems -/

/-- C1: the claim states that on a serialized extended-key string not
starting with "xprv" the core returns `EncodingError` and uses no
unchecked assertion.  Evaluating the embedded assertion step of
`generate_key`/`compute_key` at such a string shows the code panics
(process termination through a failed `assert!`) and does not produce the
`EncodingError` value. -/
theorem c1_encoding_assert_panics :
    validateEncodedKeys "AAAA" "xpubAAA" =
      .error (RunError.panicked "assertion failed: child xprv str starts with xprv") ∧
    validateEncodedKeys "AAAA" "xpubAAA" ≠
      .error (RunError.failed CoreError.encodingError) :=
  ⟨by decide, by decide⟩

set_option maxRecDepth 40000 in
/-- C2 counterexample: the hardcoded path of `generate_key` parses to
44h/118h/0h/0/0, whose fourth segment (index 3) is not hardened, refuting
"all four leading segments hardened". -/
theorem c2_fourth_segment_not_hardened :
    parsePathString generateKeyChildPath =
      .ok [2 ^ 31 + 44, 2 ^ 31 + 118, 2 ^ 31, 0, 0] ∧
    isHardenedIdx (([2 ^ 31 + 44, 2 ^ 31 + 118, 2 ^ 31, 0, 0] : List Nat).getD 3 0) = false :=
  ⟨by decide, by decide⟩

set_option maxRecDepth 40000 in
/-- C2 (amended): both derivations use the fixed canonical path
purpose=44 hardened, coin-type=118 hardened, account=0 hardened, change=0,
address-index=0 — the three leading segments hardened and the trailing two
non-hardened. -/
theorem c2_canonical_path_three_hardened :
    parsePathString generateKeyChildPath = .ok [2 ^ 31 + 44, 2 ^ 31 + 118, 2 ^ 31, 0, 0] ∧
    parsePathString computeKeyChildPath = .ok [2 ^ 31 + 44, 2 ^ 31 + 118, 2 ^ 31, 0, 0] ∧
    ([2 ^ 31 + 44, 2 ^ 31 + 118, 2 ^ 31, 0, 0] : List Nat).map isHardenedIdx =
      [true, true, true, false, false] :=
  ⟨by decide, by decide, by decide⟩

/-- C3: account derivation is a pure deterministic function — for a fixed
(path, phrase, password), any two results of the derivation pipeline are
identical: identical seed, and identical signing key and account
identifier. -/
theorem c3_derivation_deterministic (childPath phrase password : String)
    (r1 r2 : List Nat × Except RunError (Nat × String))
    (h1 : keyPipeline childPath phrase password = r1)
    (h2 : keyPipeline childPath phrase password = r2) :
    r1.1 = r2.1 ∧ r1.2 = r2.2 := by
  subst h1
  subst h2
  exact ⟨rfl, rfl⟩

theorem c3_derivation_deterministic_witness :
    (keyPipeline computeKeyChildPath "abc" "pw").1 =
      (keyPipeline computeKeyChildPath "abc" "pw").1 ∧
    (keyPipeline computeKeyChildPath "abc" "pw").2 =
      (keyPipeline computeKeyChildPath "abc" "pw").2 :=
  c3_derivation_deterministic computeKeyChildPath "abc" "pw" _ _ rfl rfl

/-- C4: seed derivation is PBKDF2 with HMAC over the 512-bit hash, 2048
iterations, password the NFKD-normalized phrase, salt "mnemonic" followed
by the NFKD-normalized passphrase, and always yields exactly 64 bytes with
no error path (the function is total). -/
theorem c4_seed_pbkdf2_64_bytes (phrase password : String) :
    toSeed phrase password =
      pbkdf2HmacSha512 (strBytes (nfkd phrase)) (strBytes ("mnemonic" ++ nfkd password))
        2048 64 ∧
    (toSeed phrase password).length = 64 :=
  ⟨rfl, length_toSeed phrase password⟩

/-- C5: for every entropy of a valid length (16/20/24/28/32 bytes, that is
128 to 256 bits), generation produces 12/15/18/21/24 words respectively
(three quarters of the byte length) and parsing the produced phrase
recovers the identical entropy bytes. -/
theorem c5_mnemonic_roundtrip (e : List Nat) (hb : ∀ b ∈ e, b < 256)
    (hlen : e.length ∈ validEntropyByteLengths) :
    newMnemonic e = .ok (wordsOfEntropy e) ∧
    (wordsOfEntropy e).length = 3 * e.length / 4 ∧
    parseMnemonic (phraseOfWords (wordsOfEntropy e)) = .ok e := by
  have hnew : newMnemonic e = .ok (wordsOfEntropy e) := by
    unfold newMnemonic
    rw [if_pos hlen]
  obtain ⟨h1, h2⟩ := mnemonic_roundtrip e hb hlen
  exact ⟨hnew, h1, h2⟩

theorem c5_mnemonic_roundtrip_witness :
    ((∀ b ∈ List.replicate 16 (0 : Nat), b < 256) ∧
      (List.replicate 16 (0 : Nat)).length ∈ validEntropyByteLengths) ∧
    (newMnemonic (List.replicate 16 (0 : Nat)) =
        .ok (wordsOfEntropy (List.replicate 16 (0 : Nat))) ∧
      (wordsOfEntropy (List.replicate 16 (0 : Nat))).length =
        3 * (List.replicate 16 (0 : Nat)).length / 4 ∧
      parseMnemonic (phraseOfWords (wordsOfEntropy (List.replicate 16 (0 : Nat)))) =
        .ok (List.replicate 16 (0 : Nat))) :=
  ⟨⟨by decide, by decide⟩,
    c5_mnemonic_roundtrip (List.replicate 16 0) (by decide) (by decide)⟩

/-- C6: a phrase containing a word absent from the fixed 2048-word list is
rejected with `UnknownWordError`; the word lookup fails before any
checksum verification, whatever the rest of the phrase contains. -/
theorem c6_unknown_word_rejected (phrase : String)
    (h : ∃ w ∈ phraseWords phrase, w ∉ wordlist) :
    parseMnemonic phrase = .error CoreError.unknownWord := by
  unfold parseMnemonic
  rw [lookupWords_unknown _ h]
  rfl

set_option maxRecDepth 100000 in
theorem c6_unknown_word_rejected_witness :
    (∃ w ∈ phraseWords "hello", w ∉ wordlist) ∧
    parseMnemonic "hello" = .error CoreError.unknownWord :=
  ⟨by decide, c6_unknown_word_rejected "hello" (by decide)⟩

/-- C8: `generate_key` and `compute_key` compute the same function from
(phrase, password) to account identifier: recomputing from a freshly
generated phrase with the same password runs the identical shared pipeline
(same seed derivation, same hardcoded path, same signing-key construction,
same "gvlt" account encoding) and returns the same account identifier. -/
theorem c8_generate_compute_agree (e : List Nat) (password : String)
    (hb : ∀ b ∈ e, b < 256) (hlen : e.length ∈ validEntropyByteLengths) :
    Except.map Prod.fst (generateKeyRun e password) =
      computeKeyRun (phraseOfWords (wordsOfEntropy e)) password := by
  have hnew : newMnemonic e = .ok (wordsOfEntropy e) := by
    unfold newMnemonic
    rw [if_pos hlen]
  have hparse := (mnemonic_roundtrip e hb hlen).2
  unfold generateKeyRun computeKeyRun
  rw [hnew, hparse]
  have hpath : generateKeyChildPath = computeKeyChildPath := rfl
  rw [hpath, except_mapError_ok, except_mapError_ok, except_bind_ok, except_bind_ok]
  cases hres : (keyPipeline computeKeyChildPath (phraseOfWords (wordsOfEntropy e)) password).2 with
  | error err => rw [except_bind_error, except_bind_error, except_map_error]
  | ok r => rw [except_bind_ok, except_bind_ok, except_map_ok]

theorem c8_generate_compute_agree_witness :
    ((∀ b ∈ List.replicate 16 (0 : Nat), b < 256) ∧
      (List.replicate 16 (0 : Nat)).length ∈ validEntropyByteLengths) ∧
    Except.map Prod.fst (generateKeyRun (List.replicate 16 (0 : Nat)) "") =
      computeKeyRun (phraseOfWords (wordsOfEntropy (List.replicate 16 (0 : Nat)))) "" :=
  ⟨⟨by decide, by decide⟩,
    c8_generate_compute_agree (List.replicate 16 0) "" (by decide) (by decide)⟩

/-- C9: `generate_key` always draws the fixed 32 bytes (256 bits) of
entropy, so its mnemonic always has exactly 24 words, and the
`InvalidEntropyLength` error is unreachable from this interface. -/
theorem c9_fixed_entropy_24_words (e : List Nat) (password : String)
    (hb : ∀ b ∈ e, b < 256) (hlen : e.length = generateEntropyByteLen) :
    newMnemonic e = .ok (wordsOfEntropy e) ∧
    (wordsOfEntropy e).length = 24 ∧
    generateKeyRun e password ≠ .error (RunError.failed CoreError.invalidEntropyLength) := by
  have hmem : e.length ∈ validEntropyByteLengths := by
    rw [hlen]; decide
  have hnew : newMnemonic e = .ok (wordsOfEntropy e) := by
    unfold newMnemonic
    rw [if_pos hmem]
  refine ⟨hnew, ?_, ?_⟩
  · have hcnt := (mnemonic_roundtrip e hb hmem).1
    rw [hcnt, hlen]
    decide
  · unfold generateKeyRun
    rw [hnew, except_mapError_ok, except_bind_ok]
    cases hres : (keyPipeline generateKeyChildPath (phraseOfWords (wordsOfEntropy e)) password).2 with
    | error err =>
      have hne := keyPipeline_no_invalid_entropy generateKeyChildPath
        (phraseOfWords (wordsOfEntropy e)) password
      rw [hres] at hne
      rw [except_bind_error]
      intro hc
      injection hc with hc
      exact hne (by rw [hc])
    | ok r =>
      rw [except_bind_ok]
      intro hc
      exact Except.noConfusion hc

theorem c9_fixed_entropy_24_words_witness :
    ((∀ b ∈ List.replicate 32 (0 : Nat), b < 256) ∧
      (List.replicate 32 (0 : Nat)).length = generateEntropyByteLen) ∧
    (newMnemonic (List.replicate 32 (0 : Nat)) =
        .ok (wordsOfEntropy (List.replicate 32 (0 : Nat))) ∧
      (wordsOfEntropy (List.replicate 32 (0 : Nat))).length = 24 ∧
      generateKeyRun (List.replicate 32 (0 : Nat)) "" ≠
        .error (RunError.failed CoreError.invalidEntropyLength)) :=
  ⟨⟨by decide, by decide⟩,
    c9_fixed_entropy_24_words (List.replicate 32 0) "" (by decide) (by decide)⟩

/-- C10: for every serializable value and format string outside the four
known formats, `print_object` prints the literal line "Unknown format" and
returns success, not an error. -/
theorem c10_unknown_format_is_ok {T : Type} (ser : Serializer T) (format : String) (v : T)
    (h1 : format ≠ "yaml") (h2 : format ≠ "json")
    (h3 : format ≠ "prettyjson") (h4 : format ≠ "toml") :
    printObject ser format v = .ok ["Unknown format"] := by
  unfold printObject
  rw [if_neg h1, if_neg h2, if_neg h3, if_neg h4]

theorem c10_unknown_format_is_ok_witness :
    (("xml" : String) ≠ "yaml" ∧ ("xml" : String) ≠ "json" ∧
      ("xml" : String) ≠ "prettyjson" ∧ ("xml" : String) ≠ "toml") ∧
    printObject ⟨fun _ => .ok "", fun _ => .ok "", fun _ => .ok "", fun _ => .ok ""⟩
      "xml" () = .ok ["Unknown format"] :=
  ⟨⟨by decide, by decide, by decide, by decide⟩,
    c10_unknown_format_is_ok ⟨fun _ => .ok "", fun _ => .ok "", fun _ => .ok "", fun _ => .ok ""⟩
      "xml" () (by decide) (by decide) (by decide) (by decide)⟩

end Gvltctl
